import Mathlib

/-!
A shallow embedding of the `hashfs` Go package (file `hashfs.go`).

Go strings are modelled as `List Char`, byte slices as `List Nat` (each
element a byte value `< 256`), machine 32-bit words as `Nat` reduced
modulo `2^32` explicitly. The global `sync.Map` cache is modelled as an
association list threaded through each operation; `Store` prepends, and
`Load` returns the most recent binding, which matches overwrite
semantics. Go's multiple-value returns `(string, error)` are modelled as
`List Char × Option HFSError`, with the zero value `""` in the error
cases exactly where the source returns it.
-/

set_option maxRecDepth 20000

namespace Hashfs

/-! ### SHA-256 over byte lists (crypto/sha256)

A faithful executable SHA-256: padding, big-endian word packing, the
64-round compression function, all word arithmetic reduced mod `2^32`.
-/

def M32 : Nat := 4294967296

def rotr (k x : Nat) : Nat := ((x >>> k) ||| (x <<< (32 - k))) % M32

def Ch (x y z : Nat) : Nat := (x &&& y) ^^^ ((x ^^^ 4294967295) &&& z)

def Maj (x y z : Nat) : Nat := (x &&& y) ^^^ (x &&& z) ^^^ (y &&& z)

def bsig0 (x : Nat) : Nat := rotr 2 x ^^^ rotr 13 x ^^^ rotr 22 x

def bsig1 (x : Nat) : Nat := rotr 6 x ^^^ rotr 11 x ^^^ rotr 25 x

def ssig0 (x : Nat) : Nat := rotr 7 x ^^^ rotr 18 x ^^^ (x >>> 3)

def ssig1 (x : Nat) : Nat := rotr 17 x ^^^ rotr 19 x ^^^ (x >>> 10)

def K256 : List Nat :=
  [1116352408, 1899447441, 3049323471, 3921009573,
   961987163, 1508970993, 2453635748, 2870763221,
   3624381080, 310598401, 607225278, 1426881987,
   1925078388, 2162078206, 2614888103, 3248222580,
   3835390401, 4022224774, 264347078, 604807628,
   770255983, 1249150122, 1555081692, 1996064986,
   2554220882, 2821834349, 2952996808, 3210313671,
   3336571891, 3584528711, 113926993, 338241895,
   666307205, 773529912, 1294757372, 1396182291,
   1695183700, 1986661051, 2177026350, 2456956037,
   2730485921, 2820302411, 3259730800, 3345764771,
   3516065817, 3600352804, 4094571909, 275423344,
   430227734, 506948616, 659060556, 883997877,
   958139571, 1322822218, 1537002063, 1747873779,
   1955562222, 2024104815, 2227730452, 2361852424,
   2428436474, 2756734187, 3204031479, 3329325298]

structure Words8 where
  a : Nat
  b : Nat
  c : Nat
  d : Nat
  e : Nat
  f : Nat
  g : Nat
  h : Nat
deriving Repr, DecidableEq

def initH : Words8 :=
  ⟨1779033703, 3144134277, 1013904242, 2773480762, 1359893119, 2600822924, 528734635, 1541459225⟩

/-- Length-of-message field of the padding: `8*len` as 8 big-endian bytes. -/
def lenBytes (n : Nat) : List Nat :=
  [(n >>> 56) % 256, (n >>> 48) % 256, (n >>> 40) % 256, (n >>> 32) % 256,
   (n >>> 24) % 256, (n >>> 16) % 256, (n >>> 8) % 256, n % 256]

/-- SHA-256 padding: `0x80`, zeros to 56 mod 64, then the bit length. -/
def padded (msg : List Nat) : List Nat :=
  msg ++ 0x80 :: (List.replicate ((119 - msg.length % 64) % 64) 0 ++ lenBytes (8 * msg.length))

/-- Pack bytes into big-endian 32-bit words (4 bytes per word). -/
def bytesToWords : List Nat → List Nat
  | b0 :: b1 :: b2 :: b3 :: rest => (((b0 * 256 + b1) * 256 + b2) * 256 + b3) :: bytesToWords rest
  | _ => []

/-- Split a word list into blocks of 16 words (one 512-bit block each). -/
def wordsToBlocks : List Nat → List (List Nat)
  | w0 :: w1 :: w2 :: w3 :: w4 :: w5 :: w6 :: w7 ::
    w8 :: w9 :: w10 :: w11 :: w12 :: w13 :: w14 :: w15 :: rest =>
      [w0, w1, w2, w3, w4, w5, w6, w7, w8, w9, w10, w11, w12, w13, w14, w15] :: wordsToBlocks rest
  | _ => []

/-- Extend the message schedule: `acc` holds the words produced so far in
reverse (most recent first), so `W[t-2]` is at index 1, `W[t-7]` at 6,
`W[t-15]` at 14 and `W[t-16]` at 15. -/
def extendW : Nat → List Nat → List Nat
  | 0, acc => acc
  | n + 1, acc =>
      extendW n (((ssig1 (acc.getD 1 0) + acc.getD 6 0 + ssig0 (acc.getD 14 0) + acc.getD 15 0) % M32) :: acc)

def schedule (block : List Nat) : List Nat := (extendW 48 block.reverse).reverse

/-- One round of the compression function, consuming a `(K[t], W[t])` pair. -/
def round256 (s : Words8) (kw : Nat × Nat) : Words8 :=
  let t1 := (s.h + bsig1 s.e + Ch s.e s.f s.g + kw.1 + kw.2) % M32
  let t2 := (bsig0 s.a + Maj s.a s.b s.c) % M32
  ⟨(t1 + t2) % M32, s.a, s.b, s.c, (s.d + t1) % M32, s.e, s.f, s.g⟩

def compress (s : Words8) (block : List Nat) : Words8 :=
  let t := List.foldl round256 s (List.zip K256 (schedule block))
  ⟨(s.a + t.a) % M32, (s.b + t.b) % M32, (s.c + t.c) % M32, (s.d + t.d) % M32,
   (s.e + t.e) % M32, (s.f + t.f) % M32, (s.g + t.g) % M32, (s.h + t.h) % M32⟩

/-- One 32-bit word as 4 big-endian bytes. -/
def wordToBytes (w : Nat) : List Nat := [(w >>> 24) % 256, (w >>> 16) % 256, (w >>> 8) % 256, w % 256]

def wordsToBytes (ws : List Nat) : List Nat := ws.flatMap wordToBytes

/-- SHA-256 digest of a byte sequence: 32 bytes. -/
def sha256 (msg : List Nat) : List Nat :=
  let s := List.foldl compress initH (wordsToBlocks (bytesToWords (padded msg)))
  wordsToBytes [s.a, s.b, s.c, s.d, s.e, s.f, s.g, s.h]

/-! ### Lowercase hex rendering (fmt `%x` on a byte slice) -/

def hexDigit (n : Nat) : Char :=
  if n = 0 then '0' else if n = 1 then '1' else if n = 2 then '2' else if n = 3 then '3'
  else if n = 4 then '4' else if n = 5 then '5' else if n = 6 then '6' else if n = 7 then '7'
  else if n = 8 then '8' else if n = 9 then '9' else if n = 10 then 'a' else if n = 11 then 'b'
  else if n = 12 then 'c' else if n = 13 then 'd' else if n = 14 then 'e' else if n = 15 then 'f'
  else '0'

/-- `fmt.Sprintf("%x", bytes)`: two lowercase hex digits per byte. -/
def hexBytes (bs : List Nat) : List Char := bs.flatMap (fun b => [hexDigit (b / 16), hexDigit (b % 16)])

/-- The sixteen lowercase hex characters. -/
def hexDigits : List Char := ("0123456789abcdef").data

/-! ### filepath.Ext -/

/-- Helper for `Ext`, operating on the reversed character list: scan from
the end of the path; a `/` or the start of the string means no extension,
the first `.` found ends the (reversed) extension. Returns the reversed
extension. -/
def extFromRev : List Char → List Char
  | [] => []
  | ch :: rest =>
    if ch = '/' then []
    else if ch = '.' then [ '.' ]
    else if extFromRev rest = [] then [] else ch :: extFromRev rest

/-- Go `filepath.Ext`: the suffix beginning at the final dot in the final
slash-separated element, or empty if there is no dot. -/
def Ext (path : List Char) : List Char := (extFromRev path.reverse).reverse

/-! ### The hashfs data model -/

/-- Result of opening-and-fully-reading a file in the backing `fs.FS`:
the open can fail, the streaming read (`io.Copy`) can fail, or the full
content is produced. -/
inductive FileResult where
  | openErr (cause : List Char)
  | readErr (cause : List Char)
  | content (bytes : List Nat)
deriving Repr, DecidableEq

/-- A backing file set: an opaque identity (interface-value identity of
the Go `fs.FS`) plus the open/read behavior per filename. -/
structure FS where
  id : Nat
  files : List Char → FileResult

/-- Key of the global `cachedHashes` map (`cacheKey` in the source),
with the `fs.FS` field represented by its identity. -/
structure cacheKey where
  fs : Nat
  filename : List Char
deriving Repr, DecidableEq

/-- The global `sync.Map` state: an association list, newest binding first. -/
abbrev Cache := List (cacheKey × List Char)

def Cache.load : Cache → cacheKey → Option (List Char)
  | [], _ => none
  | (k, v) :: rest, key => if k = key then some v else Cache.load rest key

def Cache.store (c : Cache) (k : cacheKey) (v : List Char) : Cache := (k, v) :: c

/-- The errors `hashfs` produces: the wrapped open error
(`fmt.Errorf("hashfs: error opening file: %w", err)`), the raw error
returned from `io.Copy`, and the path-mismatch error
(`fmt.Errorf("hashfs: path mismatch for %q", urlpath)`). -/
inductive HFSError where
  | openError (cause : List Char)
  | readError (cause : List Char)
  | pathMismatch (urlpath : List Char)
deriving Repr, DecidableEq

/-- `err.Error()` / `fmt.Sprint(err)` for each error. -/
def HFSError.message : HFSError → List Char
  | .openError cause => ("hashfs: error opening file: ").data ++ cause
  | .readError cause => cause
  | .pathMismatch urlpath => ("hashfs: path mismatch for \"").data ++ urlpath ++ [ '\"' ]

/-- The path composed by `MaybePath` on a cache miss:
`fmt.Sprintf("%s.%x%s", filename[0:len(filename)-len(ext)], hashBytes[:6], ext)`. -/
def hashPath (filename : List Char) (bytes : List Nat) : List Char :=
  let ext := Ext filename
  filename.take (filename.length - ext.length) ++ '.' :: (hexBytes ((sha256 bytes).take 6) ++ ext)

/-- `MaybePath`: the hashed path of `filename`, memoized in the cache. -/
def MaybePath (fs : FS) (filename : List Char) (c : Cache) :
    (List Char × Option HFSError) × Cache :=
  let key : cacheKey := ⟨fs.id, filename⟩
  match c.load key with
  | some urlpath => ((urlpath, none), c)
  | none =>
    match fs.files filename with
    | .openErr cause => (([], some (.openError cause)), c)
    | .readErr cause => (([], some (.readError cause)), c)
    | .content bytes =>
      let newP := hashPath filename bytes
      ((newP, none), c.store key newP)

/-- Outcome of `Path`: the hashed path, or a panic carrying the error. -/
inductive PathResult where
  | value (hashed : List Char)
  | panicked (e : HFSError)
deriving Repr, DecidableEq

/-- `Path`: like `MaybePath` but panics on error. -/
def Path (fs : FS) (filename : List Char) (c : Cache) : PathResult × Cache :=
  match MaybePath fs filename c with
  | ((hashed, none), c') => (.value hashed, c')
  | ((_, some e), c') => (.panicked e, c')

/-- The filename-reconstruction surgery at the top of `Unhashed`:
`ext := filepath.Ext(urlpath)`, then `hash := filepath.Ext` of the path
with `ext` stripped; if that is empty the single extension is treated as
the hash and the true extension is empty; the candidate filename is the
path with both removed, plus `ext`. -/
def reconstruct (urlpath : List Char) : List Char :=
  let ext := Ext urlpath
  let hash := Ext (urlpath.take (urlpath.length - ext.length))
  if hash = [] then
    urlpath.take (urlpath.length - ext.length)
  else
    urlpath.take (urlpath.length - ext.length - hash.length) ++ ext

/-- `Unhashed`: recover the original filename from a hashed path,
verifying the hash by re-encoding. -/
def Unhashed (fs : FS) (urlpath : List Char) (c : Cache) :
    (List Char × Option HFSError) × Cache :=
  let filename := reconstruct urlpath
  match MaybePath fs filename c with
  | ((_, some e), c') => (([], some e), c')
  | ((expectedPath, none), c') =>
    if expectedPath = urlpath then ((filename, none), c')
    else (([], some (.pathMismatch urlpath)), c')

/-! ### FileServer -/

/-- The two URL fields the handler touches: `r.URL.Path` and `r.URL.RawPath`. -/
structure Request where
  path : List Char
  rawPath : List Char
deriving Repr, DecidableEq

/-- What the handler does with the (cloned) request: either it writes an
error response itself (`http.Error` with a status and a body) and stops,
or it delegates to the wrapped `http.FileServerFS` handler with the
final values of `r.URL.Path` and `r.URL.RawPath`. -/
inductive ServeOutcome where
  | errorResponse (status : Nat) (body : List Char)
  | delegated (path : List Char) (rawPath : List Char)
deriving Repr, DecidableEq

/-- `strings.TrimPrefix(s, "/")`: drop one leading slash if present. -/
def trimSlash : List Char → List Char
  | '/' :: rest => rest
  | s => s

/-- `http.Error(w, msg, code)` writes `msg` followed by a newline. -/
def httpErrorBody (msg : List Char) : List Char := msg ++ [ '\n' ]

def statusBadRequest : Nat := 400

/-- The handler returned by `FileServer`, for one request. -/
def FileServer (fs : FS) (r : Request) (c : Cache) : ServeOutcome × Cache :=
  match Unhashed fs (trimSlash r.path) c with
  | ((_, some e), c') => (.errorResponse statusBadRequest (httpErrorBody e.message), c')
  | ((filepath, none), c') =>
    if r.rawPath = [] then
      (.delegated ('/' :: filepath) r.rawPath, c')
    else
      match Unhashed fs (trimSlash r.rawPath) c' with
      | ((_, some e), c'') => (.errorResponse statusBadRequest (httpErrorBody e.message), c'')
      | ((rawpath, none), c'') => (.delegated ('/' :: rawpath) r.rawPath, c'')

/-! ### The cache-consistency invariant

In the running program the global map only ever receives bindings
written by `MaybePath` itself, so every binding for a given `fs` records
the hash of that file's actual current content. Theorems about a general
cache state take this reachability invariant as a hypothesis. -/

def Consistent (c : Cache) (fs : FS) : Prop :=
  ∀ fn v, c.load ⟨fs.id, fn⟩ = some v →
    ∃ bytes, fs.files fn = .content bytes ∧ v = hashPath fn bytes

/-! ### Concrete file sets and cache states used by witnesses -/

/-- A file set with one file `a.js` whose content is the byte of `a`
(SHA-256 prefix `ca978112ca1b`). -/
def fsA : FS :=
  ⟨0, fun fn => if fn = ("a.js").data then .content [97]
      else .openErr ("file does not exist").data⟩

def cA : Cache := [(⟨0, ("a.js").data⟩, ("a.ca978112ca1b.js").data)]

/-- A file set with files `a.js` (content `a`) and `b.js` (content `b`,
SHA-256 prefix `3e23e8160039`). -/
def fsC : FS :=
  ⟨1, fun fn =>
    if fn = ("a.js").data then .content [97]
    else if fn = ("b.js").data then .content [98]
    else .openErr ("file does not exist").data⟩

def cC : Cache :=
  [(⟨1, ("b.js").data⟩, ("b.3e23e8160039.js").data),
   (⟨1, ("a.js").data⟩, ("a.ca978112ca1b.js").data)]

/-- A file set with one extensionless empty file named `empty`. -/
def fsE : FS :=
  ⟨3, fun fn => if fn = ("empty").data then .content []
      else .openErr ("file does not exist").data⟩

/-- A file set none of whose files can be opened, paired with a cache
that nevertheless holds an entry: lookups are served from the cache
without touching the file set. -/
def fsW : FS := ⟨7, fun _ => .openErr ("unreadable").data⟩

def cW : Cache := [(⟨7, ("x.js").data⟩, ("x.1234567890ab.js").data)]

/-! ### Properties of `filepath.Ext` -/

/-- The empty cache (process start) is consistent with any file set. -/
theorem Consistent_nil (fs : FS) : Consistent [] fs := by
  intro fn v h
  simp [Cache.load] at h

/-- Scanning a reversed path that begins with dot-free, slash-free
characters followed by a dot finds exactly those characters plus the dot. -/
theorem extFromRev_append_dot (u : List Char) (hu : ∀ ch ∈ u, ch ≠ '.' ∧ ch ≠ '/')
    (rest : List Char) : extFromRev (u ++ '.' :: rest) = u ++ [ '.' ] := by
  induction u with
  | nil => simp [extFromRev]
  | cons a u ih =>
    have ha := hu a (by simp)
    have ih' : extFromRev (u ++ '.' :: rest) = u ++ [ '.' ] :=
      ih (fun ch hch => hu ch (by simp [hch]))
    rw [List.cons_append, extFromRev, if_neg ha.2, if_neg ha.1, ih',
      if_neg (show ¬u ++ [ '.' ] = [] by simp)]
    simp

/-- `filepath.Ext (s ++ "." ++ t) = "." ++ t` whenever `t` has no dot
and no slash. -/
theorem Ext_append_dot (s t : List Char) (ht : ∀ ch ∈ t, ch ≠ '.' ∧ ch ≠ '/') :
    Ext (s ++ '.' :: t) = '.' :: t := by
  have ht' : ∀ ch ∈ t.reverse, ch ≠ '.' ∧ ch ≠ '/' := fun ch hch =>
    ht ch (List.mem_reverse.mp hch)
  have hrev : (s ++ '.' :: t).reverse = t.reverse ++ '.' :: s.reverse := by
    simp
  rw [Ext, hrev, extFromRev_append_dot t.reverse ht' s.reverse]
  simp

/-- The extension scan returns a prefix of its (reversed) input. -/
theorem extFromRev_eq_append (r : List Char) : ∃ t, r = extFromRev r ++ t := by
  induction r with
  | nil => exact ⟨[], rfl⟩
  | cons a r ih =>
    by_cases ha : a = '/'
    · exact ⟨a :: r, by simp [extFromRev, ha]⟩
    · by_cases hd : a = '.'
      · exact ⟨r, by simp [extFromRev, ha, hd]⟩
      · by_cases he : extFromRev r = []
        · exact ⟨a :: r, by simp [extFromRev, ha, hd, he]⟩
        · obtain ⟨t, ht⟩ := ih
          refine ⟨t, ?_⟩
          rw [extFromRev, if_neg ha, if_neg hd, if_neg he, List.cons_append, ← ht]

/-- The original path is its stem (the `take` used by `MaybePath`)
followed by its extension. -/
theorem stem_append_Ext (p : List Char) :
    p.take (p.length - (Ext p).length) ++ Ext p = p := by
  obtain ⟨t, ht⟩ := extFromRev_eq_append p.reverse
  have hp : p = t.reverse ++ Ext p := by
    conv_lhs => rw [← p.reverse_reverse, ht]
    simp [Ext]
  generalize he : Ext p = e at hp ⊢
  subst hp
  have hlen : (t.reverse ++ e).length - e.length = t.reverse.length := by simp
  rw [hlen, List.take_left]

/-- Every extension is empty or a dot followed by dot-free, slash-free
characters. -/
theorem Ext_shape (p : List Char) :
    Ext p = [] ∨ ∃ t, Ext p = '.' :: t ∧ ∀ ch ∈ t, ch ≠ '.' ∧ ch ≠ '/' := by
  suffices h : ∀ r : List Char,
      extFromRev r = [] ∨ ∃ u, extFromRev r = u ++ [ '.' ] ∧ ∀ ch ∈ u, ch ≠ '.' ∧ ch ≠ '/' by
    rcases h p.reverse with h0 | ⟨u, hu, hchars⟩
    · exact Or.inl (by simp [Ext, h0])
    · exact Or.inr ⟨u.reverse, by simp [Ext, hu],
        fun ch hch => hchars ch (List.mem_reverse.mp hch)⟩
  intro r
  induction r with
  | nil => exact Or.inl rfl
  | cons a r ih =>
    by_cases ha : a = '/'
    · exact Or.inl (by simp [extFromRev, ha])
    · by_cases hd : a = '.'
      · exact Or.inr ⟨[], by simp [extFromRev, ha, hd], by simp⟩
      · rcases ih with h0 | ⟨u, hu, hchars⟩
        · exact Or.inl (by simp [extFromRev, ha, hd, h0])
        · have hne : ¬extFromRev r = [] := by rw [hu]; simp
          refine Or.inr ⟨a :: u, ?_, ?_⟩
          · rw [extFromRev, if_neg ha, if_neg hd, if_neg hne, hu, List.cons_append]
          · intro ch hch
            rcases List.mem_cons.mp hch with h | h
            · exact h ▸ ⟨hd, ha⟩
            · exact hchars ch h

/-! ### Properties of the hex rendering -/

theorem hexDigit_default (n : Nat) (h : 16 ≤ n) : hexDigit n = '0' := by
  unfold hexDigit
  repeat rw [if_neg (by omega)]

theorem hexDigit_mem (n : Nat) : hexDigit n ∈ hexDigits := by
  rcases Nat.lt_or_ge n 16 with h | h
  · interval_cases n <;> decide
  · rw [hexDigit_default n h]; decide

theorem hexDigits_ne : ∀ ch ∈ hexDigits, ch ≠ '.' ∧ ch ≠ '/' := by decide

theorem hexBytes_mem (bs : List Nat) : ∀ ch ∈ hexBytes bs, ch ∈ hexDigits := by
  intro ch hch
  obtain ⟨b, _, hb⟩ := List.mem_flatMap.mp hch
  rcases List.mem_cons.mp hb with h | h
  · exact h ▸ hexDigit_mem _
  · rcases List.mem_cons.mp h with h' | h'
    · exact h' ▸ hexDigit_mem _
    · simp at h'

theorem hexBytes_chars (bs : List Nat) : ∀ ch ∈ hexBytes bs, ch ≠ '.' ∧ ch ≠ '/' :=
  fun ch hch => hexDigits_ne ch (hexBytes_mem bs ch hch)

theorem hexBytes_length (bs : List Nat) : (hexBytes bs).length = 2 * bs.length := by
  induction bs with
  | nil => rfl
  | cons b bs ih =>
    have h : hexBytes (b :: bs) = hexDigit (b / 16) :: hexDigit (b % 16) :: hexBytes bs := rfl
    simp only [h, List.length_cons, ih]
    omega

theorem wordsToBytes_length (ws : List Nat) : (wordsToBytes ws).length = 4 * ws.length := by
  induction ws with
  | nil => rfl
  | cons w ws ih =>
    have h : wordsToBytes (w :: ws)
        = (w >>> 24) % 256 :: (w >>> 16) % 256 :: (w >>> 8) % 256 :: w % 256 :: wordsToBytes ws :=
      rfl
    simp only [h, List.length_cons, ih]
    omega

theorem sha256_length (msg : List Nat) : (sha256 msg).length = 32 := by
  simp only [sha256]
  rw [wordsToBytes_length]
  rfl

/-! ### The key inversion lemma: `reconstruct` undoes `hashPath` -/

theorem reconstruct_hashPath (fn : List Char) (bytes : List Nat) :
    reconstruct (hashPath fn bytes) = fn := by
  set hx := hexBytes ((sha256 bytes).take 6) with hhx
  have hxchars : ∀ ch ∈ hx, ch ≠ '.' ∧ ch ≠ '/' := hexBytes_chars _
  rcases Ext_shape fn with hext | ⟨t, hext, htchars⟩
  · -- extensionless original: the hash segment is parsed as the extension
    have hp : hashPath fn bytes = fn ++ '.' :: hx := by
      simp only [hashPath]
      rw [← hhx, hext]
      simp
    have hExtP : Ext (fn ++ '.' :: hx) = '.' :: hx := Ext_append_dot fn hx hxchars
    have hlen : (fn ++ '.' :: hx).length - ('.' :: hx).length = fn.length := by
      rw [List.length_append]
      omega
    rw [hp, reconstruct, hExtP, hlen, List.take_left, hext, if_pos rfl]
  · -- original with a real extension `'.' :: t`
    have hstem := stem_append_Ext fn
    set stem := fn.take (fn.length - (Ext fn).length) with hstemdef
    have hp : hashPath fn bytes = (stem ++ '.' :: hx) ++ '.' :: t := by
      simp only [hashPath]
      rw [← hhx, ← hstemdef, hext]
      simp
    have hExtP : Ext ((stem ++ '.' :: hx) ++ '.' :: t) = '.' :: t :=
      Ext_append_dot _ t htchars
    have hlenA : ((stem ++ '.' :: hx) ++ '.' :: t).length - ('.' :: t).length
        = (stem ++ '.' :: hx).length := by
      rw [List.length_append]
      omega
    have hhash : Ext (stem ++ '.' :: hx) = '.' :: hx := Ext_append_dot stem hx hxchars
    have hlenB : (stem ++ '.' :: hx).length - ('.' :: hx).length = stem.length := by
      rw [List.length_append]
      omega
    rw [hp, reconstruct, hExtP, hlenA, List.take_left, hhash,
      if_neg (show ¬('.' :: hx = []) by simp), hlenB, List.append_assoc, List.take_left,
      ← hext, hstem]

/-! ### Behavior of `MaybePath` -/

/-- A cache hit returns the stored value and leaves everything untouched. -/
theorem MaybePath_cached (fs : FS) (fn : List Char) (c : Cache) (v : List Char)
    (h : c.load ⟨fs.id, fn⟩ = some v) : MaybePath fs fn c = ((v, none), c) := by
  rw [MaybePath]
  simp only [h]

/-- Analysis of a successful `MaybePath` call from a consistent cache:
the returned path is the hash path of the file's actual content, the
resulting cache holds it under the call's key, and consistency is
preserved. -/
theorem MaybePath_ok (fs : FS) (fn : List Char) (c c' : Cache) (p : List Char)
    (hc : Consistent c fs) (h : MaybePath fs fn c = ((p, none), c')) :
    (∃ bytes, fs.files fn = .content bytes ∧ p = hashPath fn bytes)
      ∧ c'.load ⟨fs.id, fn⟩ = some p ∧ Consistent c' fs := by
  rw [MaybePath] at h
  cases hload : c.load ⟨fs.id, fn⟩ with
  | some v =>
    rw [hload] at h
    simp only [Prod.mk.injEq] at h
    obtain ⟨⟨hv, -⟩, hcc⟩ := h
    subst hv hcc
    exact ⟨hc fn v hload, hload, hc⟩
  | none =>
    rw [hload] at h
    cases hfile : fs.files fn with
    | openErr cause => rw [hfile] at h; simp at h
    | readErr cause => rw [hfile] at h; simp at h
    | content bytes =>
      rw [hfile] at h
      simp only [Prod.mk.injEq] at h
      obtain ⟨⟨hp, -⟩, hcc⟩ := h
      subst hp
      refine ⟨⟨bytes, rfl, rfl⟩, ?_, ?_⟩
      · rw [← hcc, Cache.store, Cache.load, if_pos rfl]
      · intro fn' v' hv'
        rw [← hcc, Cache.store, Cache.load] at hv'
        by_cases hk : (⟨fs.id, fn⟩ : cacheKey) = ⟨fs.id, fn'⟩
        · rw [if_pos hk] at hv'
          obtain ⟨-, hfn⟩ := cacheKey.mk.injEq .. ▸ hk
          cases hv'
          exact ⟨bytes, hfn ▸ hfile, by rw [← hfn]⟩
        · rw [if_neg hk] at hv'
          exact hc fn' v' hv'

/-- A `MaybePath` call on a file with content succeeds and returns the
content's hash path (consistent caches cannot hold a stale value for
it). -/
theorem MaybePath_content (fs : FS) (fn : List Char) (c : Cache) (bytes : List Nat)
    (hc : Consistent c fs) (hfile : fs.files fn = .content bytes) :
    MaybePath fs fn c = ((hashPath fn bytes, none), (MaybePath fs fn c).2) := by
  cases hload : c.load ⟨fs.id, fn⟩ with
  | some v =>
    obtain ⟨bytes', hfile', hv⟩ := hc fn v hload
    rw [hfile] at hfile'
    cases hfile'
    simp only [MaybePath, hload, hv]
  | none =>
    simp only [MaybePath, hload, hfile]

/-- Decoding the path that `MaybePath` just produced (and cached)
recovers the original filename. -/
theorem Unhashed_of_encoded (fs : FS) (fn : List Char) (bytes : List Nat) (c : Cache)
    (hload : c.load ⟨fs.id, fn⟩ = some (hashPath fn bytes)) :
    Unhashed fs (hashPath fn bytes) c = ((fn, none), c) := by
  rw [Unhashed, reconstruct_hashPath, MaybePath_cached fs fn c _ hload]
  simp

/-! ### The claims -/

/-- C1: Round-trip law: from any reachable (consistent) cache state, if
`MaybePath fs filename` succeeds with hashed path `p`, then `Unhashed`
applied to `p` in the resulting state returns exactly `filename` with no
error. -/
theorem C1_roundtrip (fs : FS) (fn p : List Char) (c c' : Cache)
    (hc : Consistent c fs) (h : MaybePath fs fn c = ((p, none), c')) :
    Unhashed fs p c' = ((fn, none), c') := by
  obtain ⟨⟨bytes, -, hp⟩, hload, -⟩ := MaybePath_ok fs fn c c' p hc h
  subst hp
  exact Unhashed_of_encoded fs fn bytes c' hload

theorem C1_roundtrip_witness :
    MaybePath fsA ("a.js").data [] = ((("a.ca978112ca1b.js").data, none), cA)
      ∧ Unhashed fsA ("a.ca978112ca1b.js").data cA = ((("a.js").data, none), cA) := by
  have h : MaybePath fsA ("a.js").data [] = ((("a.ca978112ca1b.js").data, none), cA) := by
    decide
  exact ⟨h, C1_roundtrip fsA ("a.js").data ("a.ca978112ca1b.js").data [] cA
    (Consistent_nil fsA) h⟩

/-- C2: Hashed-path wire format: when the file opens and reads with
content `C` (and the cache is in a reachable state), `MaybePath` returns
`stem ++ "." ++ hex ++ ext` with no error, where `ext` is `filepath.Ext`
of the filename, `stem` is the filename with `ext` removed, and `hex` is
the 12-character lowercase-hex rendering of the first 6 bytes of
SHA-256 of `C`. -/
theorem C2_wire_format (fs : FS) (fn : List Char) (c : Cache) (C : List Nat)
    (hc : Consistent c fs) (hfile : fs.files fn = .content C) :
    (MaybePath fs fn c).1
        = (fn.take (fn.length - (Ext fn).length)
            ++ '.' :: (hexBytes ((sha256 C).take 6) ++ Ext fn), none)
      ∧ (hexBytes ((sha256 C).take 6)).length = 12
      ∧ ∀ ch ∈ hexBytes ((sha256 C).take 6), ch ∈ hexDigits := by
  refine ⟨?_, ?_, hexBytes_mem _⟩
  · rw [MaybePath_content fs fn c C hc hfile]
    rfl
  · rw [hexBytes_length, List.length_take, sha256_length]
    decide

theorem C2_wire_format_witness :
    fsA.files ("a.js").data = .content [97]
      ∧ (MaybePath fsA ("a.js").data []).1
          = (("a.js").data.take (("a.js").data.length - (Ext ("a.js").data).length)
              ++ '.' :: (hexBytes ((sha256 [97]).take 6) ++ Ext ("a.js").data), none)
      ∧ (hexBytes ((sha256 [97]).take 6)).length = 12
      ∧ ∀ ch ∈ hexBytes ((sha256 [97]).take 6), ch ∈ hexDigits := by
  have h := C2_wire_format fsA ("a.js").data [] [97] (Consistent_nil fsA) (by decide)
  exact ⟨by decide, h.1, h.2.1, h.2.2⟩

/-- C3: Tamper rejection: if re-encoding the filename reconstructed from
a hashed URL path `P` succeeds but yields a path different from `P`,
then `Unhashed` fails with the path-mismatch error and returns the empty
filename. -/
theorem C3_tamper_rejection (fs : FS) (P q : List Char) (c c' : Cache)
    (h : MaybePath fs (reconstruct P) c = ((q, none), c')) (hne : q ≠ P) :
    Unhashed fs P c = (([], some (.pathMismatch P)), c') := by
  simp only [Unhashed, h]
  rw [if_neg hne]

theorem C3_tamper_rejection_witness :
    MaybePath fsA (reconstruct ("a.000000000000.js").data) []
        = ((("a.ca978112ca1b.js").data, none), cA)
      ∧ ("a.ca978112ca1b.js").data ≠ ("a.000000000000.js").data
      ∧ Unhashed fsA ("a.000000000000.js").data []
          = (([], some (.pathMismatch ("a.000000000000.js").data)), cA) := by
  have h : MaybePath fsA (reconstruct ("a.000000000000.js").data) []
      = ((("a.ca978112ca1b.js").data, none), cA) := by decide
  have hne : ("a.ca978112ca1b.js").data ≠ ("a.000000000000.js").data := by decide
  exact ⟨h, hne, C3_tamper_rejection fsA ("a.000000000000.js").data
    ("a.ca978112ca1b.js").data [] cA h hne⟩

/-- C4: Raw-path handling, evaluated at a request whose parsed path and
raw path decode to different files (`a.js` and `b.js`): the handler
delegates with `URL.Path = "/b.js"` — the decode of the *raw* path — and
leaves `URL.RawPath` in its original hashed form. The second assignment
in the source writes the decoded raw path to `r.URL.Path` (overwriting
the decoded parsed path) and never rewrites `r.URL.RawPath`, so the
parsed path's decode is not what is delegated and the raw path is not
rewritten. -/
theorem C4_rawpath_delegation :
    FileServer fsC ⟨("/a.ca978112ca1b.js").data, ("/b.3e23e8160039.js").data⟩ []
      = (.delegated ("/b.js").data ("/b.3e23e8160039.js").data, cC) := by
  decide

/-- C5: Decode-failure short-circuit: when `Unhashed` on the path (with
one leading slash stripped) fails with error `e`, the handler responds
with status 400 and a body consisting of the error message (followed by
the newline `http.Error` appends), and does not delegate. -/
theorem C5_decode_failure (fs : FS) (r : Request) (c c' : Cache) (e : HFSError)
    (h : Unhashed fs (trimSlash r.path) c = (([], some e), c')) :
    FileServer fs r c = (.errorResponse 400 (e.message ++ [ '\n' ]), c')
      ∧ e.message <+: e.message ++ [ '\n' ] := by
  refine ⟨?_, ⟨[ '\n' ], rfl⟩⟩
  simp only [FileServer, h]
  rfl

theorem C5_decode_failure_witness :
    Unhashed fsA (trimSlash ("/nope").data) []
        = (([], some (.openError ("file does not exist").data)), [])
      ∧ FileServer fsA ⟨("/nope").data, []⟩ []
          = (.errorResponse 400
              ((HFSError.openError ("file does not exist").data).message ++ [ '\n' ]), []) := by
  have h : Unhashed fsA (trimSlash ("/nope").data) []
      = (([], some (.openError ("file does not exist").data)), []) := by decide
  exact ⟨h, (C5_decode_failure fsA ⟨("/nope").data, []⟩ [] []
    (.openError ("file does not exist").data) h).1⟩

/-- C6: Extensionless handling: a file whose name has no extension and
whose content is empty hashes to `<name>.e3b0c44298fc` (the first 12 hex
characters of SHA-256 of the empty byte sequence), and decoding that
path returns `<name>` unchanged. -/
theorem C6_extensionless (fs : FS) (name : List Char) (c : Cache)
    (hext : Ext name = []) (hfile : fs.files name = .content []) (hc : Consistent c fs) :
    (MaybePath fs name c).1 = (name ++ (".e3b0c44298fc").data, none)
      ∧ Unhashed fs (name ++ (".e3b0c44298fc").data) (MaybePath fs name c).2
          = ((name, none), (MaybePath fs name c).2) := by
  have hdigest : hexBytes ((sha256 []).take 6) = ("e3b0c44298fc").data := by decide
  have hdot : '.' :: ("e3b0c44298fc").data = (".e3b0c44298fc").data := by decide
  have hhash : hashPath name [] = name ++ (".e3b0c44298fc").data := by
    simp only [hashPath]
    rw [hext, hdigest, List.length_nil, Nat.sub_zero, List.take_length, List.append_nil, hdot]
  have h := MaybePath_content fs name c [] hc hfile
  obtain ⟨-, hload, -⟩ := MaybePath_ok fs name c _ _ hc h
  refine ⟨?_, ?_⟩
  · rw [h, hhash]
  · rw [← hhash]
    exact Unhashed_of_encoded fs name [] _ (hhash ▸ hload)

theorem C6_extensionless_witness :
    Ext ("empty").data = []
      ∧ fsE.files ("empty").data = .content []
      ∧ (MaybePath fsE ("empty").data []).1 = (("empty").data ++ (".e3b0c44298fc").data, none)
      ∧ Unhashed fsE (("empty").data ++ (".e3b0c44298fc").data) (MaybePath fsE ("empty").data []).2
          = ((("empty").data, none), (MaybePath fsE ("empty").data []).2) := by
  have h := C6_extensionless fsE ("empty").data [] (by decide) (by decide) (Consistent_nil fsE)
  exact ⟨by decide, by decide, h.1, h.2⟩

/-- C7: Unknown file: when the backing file set cannot open the filename
(and the cache is in a reachable state, so it cannot hold an entry for
it), `MaybePath` fails with the open error wrapping the underlying
cause, and `Path` panics with that same error instead of returning. -/
theorem C7_unknown_file (fs : FS) (fn cause : List Char) (c : Cache)
    (hc : Consistent c fs) (hfile : fs.files fn = .openErr cause) :
    MaybePath fs fn c = (([], some (.openError cause)), c)
      ∧ Path fs fn c = (.panicked (.openError cause), c)
      ∧ (HFSError.openError cause).message = ("hashfs: error opening file: ").data ++ cause := by
  have hload : c.load ⟨fs.id, fn⟩ = none := by
    cases hl : c.load ⟨fs.id, fn⟩ with
    | none => rfl
    | some v =>
      obtain ⟨bytes, hfile', -⟩ := hc fn v hl
      rw [hfile] at hfile'
      cases hfile'
  have hmp : MaybePath fs fn c = (([], some (.openError cause)), c) := by
    simp only [MaybePath, hload, hfile]
  refine ⟨hmp, ?_, rfl⟩
  simp only [Path, hmp]

theorem C7_unknown_file_witness :
    fsA.files ("nope.js").data = .openErr ("file does not exist").data
      ∧ MaybePath fsA ("nope.js").data []
          = (([], some (.openError ("file does not exist").data)), [])
      ∧ Path fsA ("nope.js").data []
          = (.panicked (.openError ("file does not exist").data), []) := by
  have h := C7_unknown_file fsA ("nope.js").data ("file does not exist").data []
    (Consistent_nil fsA) (by decide)
  exact ⟨by decide, h.1, h.2.1⟩

/-- C8: Memoization invariant: every operation of the package preserves
every existing cache binding (nothing is ever changed or removed), a
lookup hit returns the stored value with the cache untouched, and on a
hit the result does not depend on the backing file contents at all (no
open and no read happens: any file set with the same identity yields the
same result). -/
theorem C8_memoization :
    (∀ (fs : FS) (fn : List Char) (c : Cache) (k : cacheKey) (v : List Char),
        c.load k = some v → ((MaybePath fs fn c).2).load k = some v)
      ∧ (∀ (fs : FS) (p : List Char) (c : Cache) (k : cacheKey) (v : List Char),
          c.load k = some v → ((Unhashed fs p c).2).load k = some v)
      ∧ (∀ (fs : FS) (fn : List Char) (c : Cache) (k : cacheKey) (v : List Char),
          c.load k = some v → ((Path fs fn c).2).load k = some v)
      ∧ (∀ (fs : FS) (r : Request) (c : Cache) (k : cacheKey) (v : List Char),
          c.load k = some v → ((FileServer fs r c).2).load k = some v)
      ∧ (∀ (fs : FS) (fn : List Char) (c : Cache) (v : List Char),
          c.load ⟨fs.id, fn⟩ = some v → MaybePath fs fn c = ((v, none), c))
      ∧ (∀ (fs fs' : FS) (fn : List Char) (c : Cache) (v : List Char), fs.id = fs'.id →
          c.load ⟨fs.id, fn⟩ = some v → MaybePath fs fn c = MaybePath fs' fn c) := by
  have hmp : ∀ (fs : FS) (fn : List Char) (c : Cache) (k : cacheKey) (v : List Char),
      c.load k = some v → ((MaybePath fs fn c).2).load k = some v := by
    intro fs fn c k v hv
    cases hload : c.load ⟨fs.id, fn⟩ with
    | some w => rw [MaybePath_cached fs fn c w hload]; exact hv
    | none =>
      cases hfile : fs.files fn with
      | openErr cause => simp only [MaybePath, hload, hfile]; exact hv
      | readErr cause => simp only [MaybePath, hload, hfile]; exact hv
      | content bytes =>
        simp only [MaybePath, hload, hfile, Cache.store, Cache.load]
        have hk : ¬(⟨fs.id, fn⟩ : cacheKey) = k := by
          intro hk
          rw [← hk] at hv
          rw [hload] at hv
          exact Option.noConfusion hv
        rw [if_neg hk]
        exact hv
  have hun : ∀ (fs : FS) (p : List Char) (c : Cache) (k : cacheKey) (v : List Char),
      c.load k = some v → ((Unhashed fs p c).2).load k = some v := by
    intro fs p c k v hv
    rcases hm : MaybePath fs (reconstruct p) c with ⟨⟨q, oe⟩, c'⟩
    have h2 : Cache.load c' k = some v := by
      have h3 := hmp fs (reconstruct p) c k v hv
      rw [hm] at h3
      exact h3
    cases oe with
    | some e => simp only [Unhashed, hm]; exact h2
    | none =>
      simp only [Unhashed, hm]
      by_cases hq : q = p
      · rw [if_pos hq]; exact h2
      · rw [if_neg hq]; exact h2
  have hpa : ∀ (fs : FS) (fn : List Char) (c : Cache) (k : cacheKey) (v : List Char),
      c.load k = some v → ((Path fs fn c).2).load k = some v := by
    intro fs fn c k v hv
    rcases hm : MaybePath fs fn c with ⟨⟨q, oe⟩, c'⟩
    have h2 : Cache.load c' k = some v := by
      have h3 := hmp fs fn c k v hv
      rw [hm] at h3
      exact h3
    cases oe with
    | some e => simp only [Path, hm]; exact h2
    | none => simp only [Path, hm]; exact h2
  have hsrv : ∀ (fs : FS) (r : Request) (c : Cache) (k : cacheKey) (v : List Char),
      c.load k = some v → ((FileServer fs r c).2).load k = some v := by
    intro fs r c k v hv
    rcases h1 : Unhashed fs (trimSlash r.path) c with ⟨⟨q1, oe1⟩, c1⟩
    have hv1 : Cache.load c1 k = some v := by
      have h3 := hun fs (trimSlash r.path) c k v hv
      rw [h1] at h3
      exact h3
    cases oe1 with
    | some e => simp only [FileServer, h1]; exact hv1
    | none =>
      by_cases hraw : r.rawPath = []
      · simp only [FileServer, h1, if_pos hraw]; exact hv1
      · rcases h2 : Unhashed fs (trimSlash r.rawPath) c1 with ⟨⟨q2, oe2⟩, c2⟩
        have hv2 : Cache.load c2 k = some v := by
          have h3 := hun fs (trimSlash r.rawPath) c1 k v hv1
          rw [h2] at h3
          exact h3
        cases oe2 with
        | some e => simp only [FileServer, h1, if_neg hraw, h2]; exact hv2
        | none => simp only [FileServer, h1, if_neg hraw, h2]; exact hv2
  refine ⟨hmp, hun, hpa, hsrv, ?_, ?_⟩
  · exact fun fs fn c v hv => MaybePath_cached fs fn c v hv
  · intro fs fs' fn c v hid hv
    rw [MaybePath_cached fs fn c v hv, MaybePath_cached fs' fn c v (by rw [← hid]; exact hv)]

theorem C8_memoization_witness :
    Cache.load cW ⟨7, ("x.js").data⟩ = some (("x.1234567890ab.js").data)
      ∧ MaybePath fsW ("x.js").data cW = ((("x.1234567890ab.js").data, none), cW)
      ∧ Cache.load (MaybePath fsW ("x.js").data cW).2 ⟨7, ("x.js").data⟩
          = some (("x.1234567890ab.js").data) := by
  have h : Cache.load cW ⟨7, ("x.js").data⟩ = some (("x.1234567890ab.js").data) := by decide
  exact ⟨h, C8_memoization.2.2.2.2.1 fsW ("x.js").data cW _ h,
    C8_memoization.1 fsW ("x.js").data cW ⟨7, ("x.js").data⟩ _ h⟩

/-- C9: Encode-wrapper equivalence: whenever `MaybePath` succeeds with
path `p`, `Path` returns the byte-identical `p` (and the same resulting
cache) instead of panicking. -/
theorem C9_wrapper_equiv (fs : FS) (fn p : List Char) (c c' : Cache)
    (h : MaybePath fs fn c = ((p, none), c')) :
    Path fs fn c = (.value p, c') := by
  simp only [Path, h]

theorem C9_wrapper_equiv_witness :
    MaybePath fsC ("b.js").data [] = ((("b.3e23e8160039.js").data, none),
        [(⟨1, ("b.js").data⟩, ("b.3e23e8160039.js").data)])
      ∧ Path fsC ("b.js").data [] = (.value ("b.3e23e8160039.js").data,
          [(⟨1, ("b.js").data⟩, ("b.3e23e8160039.js").data)]) := by
  have h : MaybePath fsC ("b.js").data [] = ((("b.3e23e8160039.js").data, none),
      [(⟨1, ("b.js").data⟩, ("b.3e23e8160039.js").data)]) := by decide
  exact ⟨h, C9_wrapper_equiv fsC ("b.js").data ("b.3e23e8160039.js").data []
    [(⟨1, ("b.js").data⟩, ("b.3e23e8160039.js").data)] h⟩

/-- C10: Error atomicity: whenever `MaybePath` returns an error — from
the open step or the read step — the returned path is the empty string
and the cache is returned completely unchanged. -/
theorem C10_error_atomicity (fs : FS) (fn : List Char) (c : Cache) (e : HFSError)
    (h : ((MaybePath fs fn c).1).2 = some e) :
    ((MaybePath fs fn c).1).1 = [] ∧ (MaybePath fs fn c).2 = c := by
  cases hload : c.load ⟨fs.id, fn⟩ with
  | some v =>
    rw [MaybePath_cached fs fn c v hload] at h
    exact Option.noConfusion h
  | none =>
    cases hfile : fs.files fn with
    | openErr cause => simp [MaybePath, hload, hfile]
    | readErr cause => simp [MaybePath, hload, hfile]
    | content bytes =>
      simp only [MaybePath, hload, hfile] at h
      exact Option.noConfusion h

theorem C10_error_atomicity_witness :
    ((MaybePath fsA ("nope").data []).1).2 = some (.openError ("file does not exist").data)
      ∧ ((MaybePath fsA ("nope").data []).1).1 = [] ∧ (MaybePath fsA ("nope").data []).2 = [] := by
  have h : ((MaybePath fsA ("nope").data []).1).2
      = some (.openError ("file does not exist").data) := by decide
  exact ⟨h, C10_error_atomicity fsA ("nope").data []
    (.openError ("file does not exist").data) h⟩

end Hashfs
